import Mathlib

/-
  Verification of the crypto-portfolio-tracker discovery-and-aggregation
  pipeline.  The Python sources under src/crypto_portfolio_tracker are
  shallowly embedded: Python Decimal values (exact decimal arithmetic) are
  embedded into the rationals, Python dicts become insertion-ordered
  association lists with at most one entry per key, and fallible calls
  return Except / Option values.
-/

set_option maxHeartbeats 1000000

namespace CryptoPortfolio

/-- Python Decimal values embed exactly into the rationals: addition,
multiplication, min and order are exact on decimals, so every arithmetic
operation the tracker performs is preserved by the embedding. -/
abbrev Dec := ℚ

/-! ## Data model (core/models.py) -/

/-- Token model from core/models.py. -/
structure Token where
  address : String
  symbol : String
  decimals : Int
  name : Option String
deriving DecidableEq

/-- PositionType closed enumeration from core/models.py. -/
inductive PositionType where
  | lending_supply
  | lending_borrow
  | liquid_staking
  | vault
  | restaking
deriving DecidableEq

/-- Reward model from core/models.py. -/
structure Reward where
  token : Token
  amount : Dec
  usd_value : Option Dec
deriving DecidableEq

/-- Position model from core/models.py.  The free-form metadata dict is
embedded as an association list of strings (the pipeline never inspects
it, it is only carried along). -/
structure Position where
  protocol : String
  chain : String
  position_type : PositionType
  token : Token
  balance : Dec
  underlying_token : Option Token
  underlying_balance : Option Dec
  usd_value : Option Dec
  claimable_rewards : List Reward
  apy : Option Dec
  health_factor : Option Dec
  metadata : List (String × String)
deriving DecidableEq

/-- PortfolioSummary model from core/models.py; the two dict fields are
insertion-ordered association lists. -/
structure PortfolioSummary where
  address : String
  positions : List Position
  total_usd_value : Dec
  by_chain : List (String × Dec)
  by_protocol : List (String × Dec)
  total_claimable_rewards_usd : Dec
deriving DecidableEq

/-- ChainActivity model from core/models.py. -/
structure ChainActivity where
  chain : String
  has_activity : Bool
  protocols_detected : List String
deriving DecidableEq

/-! ## Python dict model

A Python dict is embedded as an insertion-ordered association list with at
most one entry per key: assignment to a present key updates the entry in
place keeping its position, assignment to a fresh key appends. -/

/-- Lookup in a dict (d.get(k) / d[k]). -/
def dictGet {κ ν : Type} [DecidableEq κ] (d : List (κ × ν)) (k : κ) : Option ν :=
  (d.find? (fun p => p.1 == k)).map (fun p => p.2)

/-- Lookup with default (d.get(k, v0)). -/
def dictGetD {κ ν : Type} [DecidableEq κ] (d : List (κ × ν)) (k : κ) (v0 : ν) : ν :=
  (dictGet d k).getD v0

/-- Assignment d[k] = v. -/
def dictSet {κ ν : Type} [DecidableEq κ] (d : List (κ × ν)) (k : κ) (v : ν) : List (κ × ν) :=
  if d.any (fun p => p.1 == k) then
    d.map (fun p => if p.1 == k then (k, v) else p)
  else d ++ [(k, v)]

/-- Key list of a dict (list(d.keys()), insertion order). -/
def dictKeys {κ ν : Type} (d : List (κ × ν)) : List κ := d.map (fun p => p.1)

/-- Sum of the values of a dict over the rationals. -/
def sumValues {κ : Type} (d : List (κ × Dec)) : Dec := (d.map (fun p => p.2)).sum

/-! ## Aggregator summary construction
(core/aggregator.py, PositionAggregator._build_portfolio_summary) -/

/-- USD value of a position with an absent value counted as zero
(position.usd_value or Decimal(0)). -/
def posValue (p : Position) : Dec := (p.usd_value).getD 0

/-- Sum of the reward USD values of a reward list, absent counted as zero. -/
def rewardsSum (rs : List Reward) : Dec := (rs.map (fun r => (r.usd_value).getD 0)).sum

/-- Loop state of _build_portfolio_summary. -/
structure SummaryAcc where
  total_usd : Dec
  by_chain : List (String × Dec)
  by_protocol : List (String × Dec)
  total_rewards_usd : Dec

/-- One iteration of the aggregation loop of _build_portfolio_summary. -/
def summaryStep (acc : SummaryAcc) (p : Position) : SummaryAcc :=
  { total_usd := acc.total_usd + posValue p
    by_chain := dictSet acc.by_chain p.chain (dictGetD acc.by_chain p.chain 0 + posValue p)
    by_protocol := dictSet acc.by_protocol p.protocol
      (dictGetD acc.by_protocol p.protocol 0 + posValue p)
    total_rewards_usd := acc.total_rewards_usd + rewardsSum p.claimable_rewards }

/-- PositionAggregator._build_portfolio_summary from core/aggregator.py. -/
def build_portfolio_summary (user_address : String) (positions : List Position) :
    PortfolioSummary :=
  let acc := positions.foldl summaryStep ⟨0, [], [], 0⟩
  { address := user_address
    positions := positions
    total_usd_value := acc.total_usd
    by_chain := acc.by_chain
    by_protocol := acc.by_protocol
    total_claimable_rewards_usd := acc.total_rewards_usd }

/-! ## Dict lemmas -/

theorem dictGet_cons_eq {κ ν : Type} [DecidableEq κ] (d : List (κ × ν)) (k : κ) (b : ν) :
    dictGet ((k, b) :: d) k = some b := by
  simp [dictGet, List.find?]

theorem dictGet_cons_ne {κ ν : Type} [DecidableEq κ] (d : List (κ × ν)) (a k : κ) (b : ν)
    (h : a ≠ k) : dictGet ((a, b) :: d) k = dictGet d k := by
  have hb : (a == k) = false := by simp [h]
  simp [dictGet, List.find?, hb]

theorem dictSet_cons_ne {κ ν : Type} [DecidableEq κ] (d : List (κ × ν)) (a k : κ) (b v : ν)
    (h : a ≠ k) : dictSet ((a, b) :: d) k v = (a, b) :: dictSet d k v := by
  have hb : (a == k) = false := by simp [h]
  have hbn : ¬((a == k) = true) := by simp [h]
  simp only [dictSet, List.any_cons, hb, Bool.false_or, List.map_cons, if_neg hbn]
  by_cases hd : d.any (fun p => p.1 == k) <;> simp [hd]

theorem map_set_of_not_mem {κ ν : Type} [DecidableEq κ] (d : List (κ × ν)) (k : κ) (x : κ × ν)
    (h : k ∉ dictKeys d) : d.map (fun p => if p.1 == k then x else p) = d := by
  induction d with
  | nil => rfl
  | cons a rest ih =>
    simp only [dictKeys, List.map_cons, List.mem_cons] at h
    push_neg at h
    have ha : a.1 ≠ k := fun hh => h.1 hh.symm
    rw [List.map_cons, if_neg (show ¬((a.1 == k) = true) by simp [ha]),
      ih (by simpa [dictKeys] using h.2)]

theorem dictKeys_dictSet {κ ν : Type} [DecidableEq κ] (d : List (κ × ν)) (k : κ) (v : ν) :
    dictKeys (dictSet d k v) = if k ∈ dictKeys d then dictKeys d else dictKeys d ++ [k] := by
  by_cases hk : k ∈ dictKeys d
  · have hany : d.any (fun p => p.1 == k) = true := by
      simp only [List.any_eq_true]
      rcases List.mem_map.mp hk with ⟨p, hp, hpk⟩
      exact ⟨p, hp, by simp [hpk]⟩
    rw [if_pos hk]
    simp only [dictSet, hany, if_true, dictKeys, List.map_map]
    apply List.map_congr_left
    intro p _
    by_cases h : p.1 = k
    · simp [h]
    · simp [h]
  · have hany : d.any (fun p => p.1 == k) = false := by
      simp only [List.any_eq_false]
      intro p hp
      simp only [beq_iff_eq]
      intro hpk
      exact hk (List.mem_map.mpr ⟨p, hp, hpk⟩)
    rw [if_neg hk]
    simp [dictSet, hany, dictKeys]

theorem dictKeys_nodup_dictSet {κ ν : Type} [DecidableEq κ] (d : List (κ × ν)) (k : κ) (v : ν)
    (h : (dictKeys d).Nodup) : (dictKeys (dictSet d k v)).Nodup := by
  rw [dictKeys_dictSet]
  by_cases hk : k ∈ dictKeys d
  · simpa [hk] using h
  · simp only [hk, if_false]
    simpa [List.nodup_append] using ⟨h, hk⟩

theorem sumValues_dictSet_add {κ : Type} [DecidableEq κ] (d : List (κ × Dec)) (k : κ) (v : Dec)
    (h : (dictKeys d).Nodup) :
    sumValues (dictSet d k (dictGetD d k 0 + v)) = sumValues d + v := by
  induction d with
  | nil => simp [dictSet, dictGetD, dictGet, sumValues]
  | cons a rest ih =>
    obtain ⟨a1, a2⟩ := a
    simp only [dictKeys, List.map_cons, List.nodup_cons] at h
    by_cases hak : a1 = k
    · subst hak
    -- first entry is updated in place, the tail is untouched
      have hany : ((a1, a2) :: rest).any (fun p => p.1 == a1) = true := by simp
      have hget : dictGetD ((a1, a2) :: rest) a1 0 = a2 := by
        simp [dictGetD, dictGet_cons_eq]
      have hrest : rest.map (fun p => if p.1 == a1 then (a1, a2 + v) else p) = rest :=
        map_set_of_not_mem rest a1 _ (by simpa [dictKeys] using h.1)
      simp only [dictSet, hany, if_pos, hget, List.map_cons, beq_self_eq_true, if_true,
        hrest, sumValues, List.map_cons, List.sum_cons]
      ring
    · have hget : dictGetD ((a1, a2) :: rest) k 0 = dictGetD rest k 0 := by
        simp [dictGetD, dictGet_cons_ne _ _ _ _ hak]
      rw [hget, dictSet_cons_ne _ _ _ _ _ hak]
      have ihr := ih (by simpa [dictKeys] using h.2)
      simp only [sumValues, List.map_cons, List.sum_cons] at *
      rw [ihr]
      ring

/-! ## C1: summary totals -/

/-- Invariant of the _build_portfolio_summary loop. -/
def SummaryInv (acc : SummaryAcc) : Prop :=
  (dictKeys acc.by_chain).Nodup ∧ (dictKeys acc.by_protocol).Nodup ∧
    sumValues acc.by_chain = acc.total_usd ∧ sumValues acc.by_protocol = acc.total_usd

theorem summaryStep_inv (acc : SummaryAcc) (p : Position) (h : SummaryInv acc) :
    SummaryInv (summaryStep acc p) ∧
      (summaryStep acc p).total_usd = acc.total_usd + posValue p := by
  obtain ⟨h1, h2, h3, h4⟩ := h
  refine ⟨⟨?_, ?_, ?_, ?_⟩, rfl⟩
  · exact dictKeys_nodup_dictSet _ _ _ h1
  · exact dictKeys_nodup_dictSet _ _ _ h2
  · simpa [summaryStep, sumValues_dictSet_add _ _ _ h1] using congrArg (· + posValue p) h3
  · simpa [summaryStep, sumValues_dictSet_add _ _ _ h2] using congrArg (· + posValue p) h4

theorem summary_loop_spec (ps : List Position) (acc : SummaryAcc) (h : SummaryInv acc) :
    SummaryInv (ps.foldl summaryStep acc) ∧
      (ps.foldl summaryStep acc).total_usd =
        acc.total_usd + (ps.map posValue).sum := by
  induction ps generalizing acc with
  | nil => simpa using h
  | cons p rest ih =>
    obtain ⟨hinv, htot⟩ := summaryStep_inv acc p h
    obtain ⟨hinv2, htot2⟩ := ih (summaryStep acc p) hinv
    refine ⟨hinv2, ?_⟩
    simp only [List.foldl_cons, List.map_cons, List.sum_cons, htot2, htot]
    ring

/-- C1: for every wallet address and list of positions, the PortfolioSummary
built by _build_portfolio_summary has total_usd_value equal to the sum of the
position USD values (absent counted as zero), and the values of the by_chain
map and of the by_protocol map each sum to that same total. -/
theorem summary_totals_partition (user_address : String) (ps : List Position) :
    (build_portfolio_summary user_address ps).total_usd_value = (ps.map posValue).sum
    ∧ sumValues (build_portfolio_summary user_address ps).by_chain
        = (build_portfolio_summary user_address ps).total_usd_value
    ∧ sumValues (build_portfolio_summary user_address ps).by_protocol
        = (build_portfolio_summary user_address ps).total_usd_value := by
  have h0 : SummaryInv ⟨0, [], [], 0⟩ := by
    constructor
    · simp [dictKeys]
    · constructor
      · simp [dictKeys]
      · constructor <;> simp [sumValues]
  obtain ⟨⟨_, _, hc, hp⟩, htot⟩ := summary_loop_spec ps ⟨0, [], [], 0⟩ h0
  refine ⟨?_, ?_, ?_⟩
  · simpa [build_portfolio_summary] using htot
  · simpa [build_portfolio_summary] using hc
  · simpa [build_portfolio_summary] using hp

/-! ## Pricing enrichment
(core/aggregator.py, PositionAggregator._enrich_positions_with_pricing) -/

/-- A (chain, token_address) price key. -/
abbrev PriceKey := String × String

/-- Observable calls made by the aggregation pipeline: protocol-discovery
calls of the scanner and batched get_prices calls to the pricing service. -/
inductive CallEvent where
  | discovery (wallet chain : String)
  | getPrices (keys : List PriceKey)
deriving DecidableEq

/-- First loop of _enrich_positions_with_pricing: builds the tokens_to_price
dict.  Every position inserts its primary token under (chain, token.address);
a position with an underlying token additionally inserts it under
(chain, underlying_token.address). -/
def tokensToPrice (positions : List Position) : List (PriceKey × Token) :=
  positions.foldl
    (fun d p =>
      let d1 := dictSet d (p.chain, p.token.address) p.token
      match p.underlying_token with
      | some u => dictSet d1 (p.chain, u.address) u
      | none => d1)
    []

/-- Key list sent to pricing_service.get_prices
(list(tokens_to_price.keys())). -/
def requestedKeys (positions : List Position) : List PriceKey :=
  dictKeys (tokensToPrice positions)

/-- Price lookup with the Decimal zero default (prices.get(key, Decimal(0))). -/
def priceOf (prices : List (PriceKey × Dec)) (k : PriceKey) : Dec := dictGetD prices k 0

/-- USD-value part of the enrichment loop body.  The Python guard is
if position.underlying_token and position.underlying_balance: by truthiness a
missing underlying balance and an underlying balance of zero both fail the
guard, sending the position to the direct-pricing branch. -/
def enrichUsd (prices : List (PriceKey × Dec)) (p : Position) : Position :=
  match p.underlying_token, p.underlying_balance with
  | some u, some b =>
    if b ≠ 0 then
      let up := priceOf prices (p.chain, u.address)
      if up > 0 then { p with usd_value := some (b * up) }
      else
        let tp := priceOf prices (p.chain, p.token.address)
        if tp > 0 then { p with usd_value := some (p.balance * tp) } else p
    else
      let tp := priceOf prices (p.chain, p.token.address)
      if tp > 0 then { p with usd_value := some (p.balance * tp) } else p
  | _, _ =>
    let tp := priceOf prices (p.chain, p.token.address)
    if tp > 0 then { p with usd_value := some (p.balance * tp) } else p

/-- Reward part of the enrichment loop body: each reward is priced under
(position.chain, reward.token.address) when that price is positive. -/
def enrichRewards (prices : List (PriceKey × Dec)) (p : Position) : Position :=
  { p with claimable_rewards := p.claimable_rewards.map (fun r =>
      let rp := priceOf prices (p.chain, r.token.address)
      if rp > 0 then { r with usd_value := some (r.amount * rp) } else r) }

/-- Full enrichment loop body for one position. -/
def enrichOne (prices : List (PriceKey × Dec)) (p : Position) : Position :=
  enrichRewards prices (enrichUsd prices p)

/-- PositionAggregator._enrich_positions_with_pricing: empty input returns
immediately without calling the pricing service; otherwise all prices are
fetched in one batched get_prices call and every position is enriched.
The second component records the calls made to the pricing service. -/
def enrich_positions_with_pricing (get_prices : List PriceKey → List (PriceKey × Dec))
    (positions : List Position) : List Position × List CallEvent :=
  if positions.isEmpty then (positions, [])
  else
    let prices := get_prices (requestedKeys positions)
    (positions.map (enrichOne prices), [CallEvent.getPrices (requestedKeys positions)])

/-! ## Requested-key lemmas (C4) -/

/-- The price key a position demands according to the spec sentence: the
underlying pair when an underlying token exists, otherwise the primary pair. -/
def specKey (p : Position) : PriceKey :=
  match p.underlying_token with
  | some u => (p.chain, u.address)
  | none => (p.chain, p.token.address)

theorem mem_dictKeys_dictSet_self {κ ν : Type} [DecidableEq κ] (d : List (κ × ν)) (k : κ)
    (v : ν) : k ∈ dictKeys (dictSet d k v) := by
  rw [dictKeys_dictSet]
  by_cases hk : k ∈ dictKeys d
  · rw [if_pos hk]
    exact hk
  · rw [if_neg hk]
    simp

theorem mem_dictKeys_dictSet_mono {κ ν : Type} [DecidableEq κ] (d : List (κ × ν)) (k x : κ)
    (v : ν) (h : x ∈ dictKeys d) : x ∈ dictKeys (dictSet d k v) := by
  rw [dictKeys_dictSet]
  by_cases hk : k ∈ dictKeys d
  · rw [if_pos hk]
    exact h
  · rw [if_neg hk]
    exact List.mem_append_left _ h

theorem mem_keys_tokensToPrice_loop (ps : List Position) (d : List (PriceKey × Token)) (x : PriceKey)
    (h : x ∈ dictKeys d) :
    x ∈ dictKeys (ps.foldl
      (fun d p =>
        let d1 := dictSet d (p.chain, p.token.address) p.token
        match p.underlying_token with
        | some u => dictSet d1 (p.chain, u.address) u
        | none => d1) d) := by
  induction ps generalizing d with
  | nil => simpa using h
  | cons p rest ih =>
    apply ih
    have h1 : x ∈ dictKeys (dictSet d (p.chain, p.token.address) p.token) :=
      mem_dictKeys_dictSet_mono _ _ _ _ h
    cases hu : p.underlying_token with
    | none => simpa [hu] using h1
    | some u => simpa [hu] using mem_dictKeys_dictSet_mono _ _ _ _ h1

theorem specKey_mem_loop (ps : List Position) (p : Position) (hp : p ∈ ps)
    (d : List (PriceKey × Token)) :
    specKey p ∈ dictKeys (ps.foldl
      (fun d p =>
        let d1 := dictSet d (p.chain, p.token.address) p.token
        match p.underlying_token with
        | some u => dictSet d1 (p.chain, u.address) u
        | none => d1) d) := by
  induction ps generalizing d with
  | nil => cases hp
  | cons q rest ih =>
    rcases List.mem_cons.mp hp with hq | hmem
    · subst hq
      simp only [List.foldl_cons]
      apply mem_keys_tokensToPrice_loop
      cases hu : p.underlying_token with
      | none =>
        simp only [hu, specKey]
        exact mem_dictKeys_dictSet_self _ _ _
      | some u =>
        simp only [specKey, hu]
        exact mem_dictKeys_dictSet_self _ _ _
    · simp only [List.foldl_cons]
      exact ih hmem _

theorem specKey_mem_requestedKeys (ps : List Position) (p : Position) (hp : p ∈ ps) :
    specKey p ∈ requestedKeys ps :=
  specKey_mem_loop ps p hp []

/-! ## Concrete inputs used by witnesses and counterexamples -/

/-- A plain ERC20 token. -/
def tokA : Token := ⟨"0xaaa", "AAA", 18, none⟩

/-- A reward token whose address differs from every position token address. -/
def tokR : Token := ⟨"0xrrr", "RRR", 18, none⟩

/-- A claimable reward in tokR. -/
def rewardR : Reward := ⟨tokR, 1, none⟩

/-- A lending position holding tokA with one claimable reward in tokR and no
underlying token. -/
def posWithReward : Position :=
  ⟨"aave_v3", "ethereum", PositionType.lending_supply, tokA, 5, none, none, none,
    [rewardR], none, none, []⟩

/-- The stETH token. -/
def tokS : Token := ⟨"0xsteth", "stETH", 18, none⟩

/-- The native ETH pseudo-token (empty contract address). -/
def tokE : Token := ⟨"", "ETH", 18, none⟩

/-- A liquid-staking position: 10.5 stETH redeemable for 10.5 ETH. -/
def posLido : Position :=
  ⟨"lido", "ethereum", PositionType.liquid_staking, tokS, 21/2, some tokE, some (21/2),
    none, [], none, none, []⟩

/-- A price table where only the underlying ETH has a price. -/
def pricesUnderlyingOnly : List (PriceKey × Dec) := [(("ethereum", ""), 2000)]

/-- A price table where only the primary stETH token has a price. -/
def pricesPrimaryOnly : List (PriceKey × Dec) := [(("ethereum", "0xsteth"), 1800)]

/-- A pricing service returning no prices at all. -/
def noPrices : List PriceKey → List (PriceKey × Dec) := fun _ => []

/-! ## C4: the requested-price key set -/

/-- C4 counterexample: the reward token pair of a position is not part of the
keys sent to get_prices.  posWithReward carries a claimable reward in tokR,
yet the pair (chain, tokR.address) is absent from the requested keys (only
the primary pair is requested), so the claim as stated is false. -/
theorem requested_keys_missing_reward_pair :
    rewardR ∈ posWithReward.claimable_rewards
      ∧ rewardR.token.address = "0xrrr"
      ∧ ("ethereum", "0xrrr") ∉ requestedKeys [posWithReward]
      ∧ requestedKeys [posWithReward] = [("ethereum", "0xaaa")] := by
  refine ⟨?_, rfl, ?_, rfl⟩
  · simp [posWithReward]
  · decide

/-- C4 (amended): for every non-empty list of positions, the key set sent in
the single batched get_prices call contains, for each position, the
underlying token's (chain, address) pair when an underlying token exists and
otherwise the primary token's pair; reward token pairs are not requested. -/
theorem requested_keys_cover_positions (get_prices : List PriceKey → List (PriceKey × Dec))
    (ps : List Position) (hps : ps ≠ []) :
    (∀ p ∈ ps, specKey p ∈ requestedKeys ps)
      ∧ (enrich_positions_with_pricing get_prices ps).2
          = [CallEvent.getPrices (requestedKeys ps)] := by
  constructor
  · intro p hp
    exact specKey_mem_requestedKeys ps p hp
  · have h : ps.isEmpty = false := by
      cases ps with
      | nil => cases hps rfl
      | cons a l => rfl
    simp [enrich_positions_with_pricing, h]

/-- Witness for the amended C4 at a concrete input. -/
theorem requested_keys_cover_positions_witness :
    ([posLido] : List Position) ≠ []
      ∧ specKey posLido ∈ requestedKeys [posLido]
      ∧ (enrich_positions_with_pricing noPrices [posLido]).2
          = [CallEvent.getPrices (requestedKeys [posLido])] := by
  have h := requested_keys_cover_positions noPrices [posLido] (by simp)
  exact ⟨by simp, h.1 posLido (by simp), h.2⟩

/-! ## C3: underlying pricing with primary fallback -/

theorem enrichRewards_usd (prices : List (PriceKey × Dec)) (p : Position) :
    (enrichRewards prices p).usd_value = p.usd_value := rfl

/-- C3: a position with an underlying token and a (truthy, i.e. nonzero)
underlying balance is priced as underlying_balance times the underlying
price when that price is positive; when the underlying price is zero and the
primary token price is positive, it is instead priced as balance times the
primary token price. -/
theorem underlying_price_fallback (prices : List (PriceKey × Dec)) (p : Position) (u : Token)
    (b : Dec) (hu : p.underlying_token = some u) (hb : p.underlying_balance = some b)
    (hb0 : b ≠ 0) :
    (0 < priceOf prices (p.chain, u.address) →
      (enrichOne prices p).usd_value = some (b * priceOf prices (p.chain, u.address)))
    ∧ (priceOf prices (p.chain, u.address) = 0 →
        0 < priceOf prices (p.chain, p.token.address) →
        (enrichOne prices p).usd_value
          = some (p.balance * priceOf prices (p.chain, p.token.address))) := by
  constructor
  · intro hup
    simp only [enrichOne, enrichRewards_usd, enrichUsd, hu, hb, if_pos hb0, if_pos hup]
  · intro hup0 htp
    have hnot : ¬(0 < priceOf prices (p.chain, u.address)) := by
      rw [hup0]
      exact lt_irrefl 0
    simp only [enrichOne, enrichRewards_usd, enrichUsd, hu, hb, if_pos hb0, if_neg hnot,
      if_pos htp]

/-- Witness for C3: both branches exercised at concrete inputs; the first is
the end-to-end literal example of the spec (10.5 stETH at ETH = 2000 gives a
USD value of 21000). -/
theorem underlying_price_fallback_witness :
    posLido.underlying_token = some tokE
      ∧ posLido.underlying_balance = some ((21 : Dec)/2)
      ∧ ((21 : Dec)/2) ≠ 0
      ∧ 0 < priceOf pricesUnderlyingOnly (posLido.chain, tokE.address)
      ∧ (enrichOne pricesUnderlyingOnly posLido).usd_value = some (21000 : Dec)
      ∧ priceOf pricesPrimaryOnly (posLido.chain, tokE.address) = 0
      ∧ 0 < priceOf pricesPrimaryOnly (posLido.chain, posLido.token.address)
      ∧ (enrichOne pricesPrimaryOnly posLido).usd_value = some ((21 : Dec)/2 * 1800) := by
  have hup : priceOf pricesUnderlyingOnly (posLido.chain, tokE.address) = 2000 := by decide
  have hzero : priceOf pricesPrimaryOnly (posLido.chain, tokE.address) = 0 := by decide
  have htp : priceOf pricesPrimaryOnly (posLido.chain, posLido.token.address) = 1800 := by
    decide
  have h1 := (underlying_price_fallback pricesUnderlyingOnly posLido tokE (21/2) rfl rfl
    (by norm_num)).1 (by rw [hup]; norm_num)
  have h2 := (underlying_price_fallback pricesPrimaryOnly posLido tokE (21/2) rfl rfl
    (by norm_num)).2 hzero (by rw [htp]; norm_num)
  refine ⟨rfl, rfl, by norm_num, by rw [hup]; norm_num, ?_, hzero, by rw [htp]; norm_num, ?_⟩
  · rw [h1, hup]
    norm_num
  · rw [h2, htp]
    norm_num [posLido]

/-! ## C10: enrichment frame conditions -/

/-- Everything of a position except the position USD value and the reward USD
values: these fields must be untouched by enrichment. -/
def sameFrame (p q : Position) : Prop :=
  q.protocol = p.protocol ∧ q.chain = p.chain ∧ q.position_type = p.position_type
    ∧ q.token = p.token ∧ q.balance = p.balance
    ∧ q.underlying_token = p.underlying_token
    ∧ q.underlying_balance = p.underlying_balance
    ∧ q.claimable_rewards.map (fun r => (r.token, r.amount))
        = p.claimable_rewards.map (fun r => (r.token, r.amount))
    ∧ q.apy = p.apy ∧ q.health_factor = p.health_factor ∧ q.metadata = p.metadata

theorem sameFrame_refl (p : Position) : sameFrame p p := by
  refine ⟨rfl, rfl, rfl, rfl, rfl, rfl, rfl, rfl, rfl, rfl, rfl⟩

theorem enrichUsd_eq_update (prices : List (PriceKey × Dec)) (p : Position) :
    ∃ v, enrichUsd prices p = { p with usd_value := v } := by
  obtain ⟨pr, ch, pt, tk, bal, ut, ub, uv, cr, ap, hf, md⟩ := p
  cases ut <;> cases ub <;>
    · simp only [enrichUsd]
      split_ifs <;> exact ⟨_, rfl⟩

theorem sameFrame_enrichOne (prices : List (PriceKey × Dec)) (p : Position) :
    sameFrame p (enrichOne prices p) := by
  obtain ⟨v, hv⟩ := enrichUsd_eq_update prices p
  unfold enrichOne enrichRewards
  rw [hv]
  refine ⟨rfl, rfl, rfl, rfl, rfl, rfl, rfl, ?_, rfl, rfl, rfl⟩
  simp only [List.map_map]
  apply List.map_congr_left
  intro r _
  by_cases hr : 0 < priceOf prices (p.chain, r.token.address) <;> simp [hr]

/-- C10: enrichment preserves the length and order of the position list, and
for every position every field other than the USD values (its own usd_value
and its rewards' usd_value) is unchanged. -/
theorem enrichment_frame (get_prices : List PriceKey → List (PriceKey × Dec))
    (ps : List Position) :
    (enrich_positions_with_pricing get_prices ps).1.length = ps.length
      ∧ ∀ i (hi : i < ps.length)
          (hi2 : i < (enrich_positions_with_pricing get_prices ps).1.length),
          sameFrame (ps.get ⟨i, hi⟩)
            ((enrich_positions_with_pricing get_prices ps).1.get ⟨i, hi2⟩) := by
  by_cases hps : ps.isEmpty
  · have he : enrich_positions_with_pricing get_prices ps = (ps, []) := by
      simp [enrich_positions_with_pricing, hps]
    rw [he]
    exact ⟨rfl, fun i hi hi2 => sameFrame_refl _⟩
  · have he : (enrich_positions_with_pricing get_prices ps).1
        = ps.map (enrichOne (get_prices (requestedKeys ps))) := by
      simp [enrich_positions_with_pricing, hps]
    rw [he]
    refine ⟨List.length_map _ _, ?_⟩
    intro i hi hi2
    simp only [List.get_eq_getElem, List.getElem_map]
    exact sameFrame_enrichOne _ _

/-- Witness for C10 at a concrete input. -/
theorem enrichment_frame_witness :
    (0 : ℕ) < ([posWithReward] : List Position).length
      ∧ sameFrame (([posWithReward] : List Position).get ⟨0, by simp⟩)
          ((enrich_positions_with_pricing noPrices [posWithReward]).1.get
            ⟨0, by simp [enrich_positions_with_pricing]⟩) := by
  refine ⟨by simp, ?_⟩
  exact (enrichment_frame noPrices [posWithReward]).2 0 (by simp)
    (by simp [enrich_positions_with_pricing])

/-! ## Scanner and aggregation pipeline
(core/scanner.py ChainScanner, core/aggregator.py PositionAggregator)

The RPC-backed collaborators are abstracted into an environment: the
activity probe, the discovery probe, the handler registry and the pricing
service are functions of the environment, and the pipeline records the
protocol-discovery and pricing calls it performs.  The thread-pool fan-out
of get_all_positions is embedded as a deterministic sequential merge of the
per-chain results: per-chain tasks only read the shared environment and the
merge order does not affect any claim settled here. -/

/-- Environment of a scan: every remote collaborator of the pipeline. -/
structure ScanEnv where
  supportedChains : List String
  chainActive : String → String → Bool
  discoverResult : String → String → List String
  handlers : String → Option (String → String → Except Unit (List Position))
  get_prices : List PriceKey → List (PriceKey × Dec)

/-- ChainScanner.scan_chain: when the activity probe fails the chain is
reported inactive with no protocols and discovery is skipped entirely;
otherwise discovery runs (recorded as a discovery call event). -/
def scan_chain (env : ScanEnv) (wallet chain : String) : ChainActivity × List CallEvent :=
  if env.chainActive wallet chain then
    (⟨chain, true, env.discoverResult wallet chain⟩, [CallEvent.discovery wallet chain])
  else
    (⟨chain, false, []⟩, [])

/-- ChainScanner.detect_active_chains. -/
def detect_active_chains (env : ScanEnv) (wallet : String) : List String :=
  env.supportedChains.filter (fun c => env.chainActive wallet c)

/-- ChainScanner.scan_all_chains: the active set is computed once; chains
outside it get a zero-cost inactive ChainActivity, chains inside it get a
full scan_chain.  The per-chain loop is written as a map. -/
def scan_all_chains (env : ScanEnv) (wallet : String) :
    List ChainActivity × List CallEvent :=
  let active := detect_active_chains env wallet
  let results := env.supportedChains.map (fun c =>
    if c ∈ active then scan_chain env wallet c else (⟨c, false, []⟩, []))
  (results.map Prod.fst, (results.map Prod.snd).flatten)

/-- PositionAggregator._get_chain_positions: protocols without a registered
handler are skipped, a handler raising an exception is skipped, results of
the others are concatenated. -/
def get_chain_positions (env : ScanEnv) (wallet chain : String)
    (protocols : List String) : List Position :=
  protocols.foldl
    (fun acc pname =>
      match env.handlers pname with
      | none => acc
      | some h =>
        match h wallet chain with
        | Except.error _ => acc
        | Except.ok ps => acc ++ ps)
    []

/-- PositionAggregator.get_all_positions: scan all chains, keep the active
ones, return the empty summary immediately when none is active, otherwise
fetch per-chain positions, enrich them and build the summary. -/
def get_all_positions (env : ScanEnv) (wallet : String) :
    PortfolioSummary × List CallEvent :=
  let scanRes := scan_all_chains env wallet
  let active := scanRes.1.filter (fun a => a.has_activity)
  if active.isEmpty then
    (⟨wallet, [], 0, [], [], 0⟩, scanRes.2)
  else
    let all_positions := active.foldl
      (fun acc a => acc ++ get_chain_positions env wallet a.chain a.protocols_detected) []
    let er := enrich_positions_with_pricing env.get_prices all_positions
    (build_portfolio_summary wallet er.1, scanRes.2 ++ er.2)

/-! ## C2: inactive wallet gives the empty summary without discovery or
pricing calls -/

theorem flatten_map_nil {α β : Type} (l : List α) :
    (l.map (fun _ => ([] : List β))).flatten = [] := by
  induction l with
  | nil => rfl
  | cons a rest ih => simp [ih]

theorem chainActive_false_of_all_inactive (env : ScanEnv) (wallet : String)
    (h : ∀ a ∈ (scan_all_chains env wallet).1, a.has_activity = false) :
    ∀ c ∈ env.supportedChains, env.chainActive wallet c = false := by
  intro c hc
  cases hct : env.chainActive wallet c with
  | false => rfl
  | true =>
    exfalso
    have hmem : c ∈ detect_active_chains env wallet :=
      List.mem_filter.mpr ⟨hc, by rw [hct]⟩
    have hel : (⟨c, true, env.discoverResult wallet c⟩ : ChainActivity)
        ∈ (scan_all_chains env wallet).1 := by
      unfold scan_all_chains
      simp only [List.map_map]
      refine List.mem_map.mpr ⟨c, hc, ?_⟩
      simp [hmem, scan_chain, hct]
    have := h _ hel
    simp at this

/-- C2: when no scanned chain reports activity, get_all_positions returns
the empty summary (zero total, no positions, empty by-chain and by-protocol
maps, zero claimable rewards) and the pipeline performs no
protocol-discovery call and no pricing-service call. -/
theorem no_activity_empty_summary (env : ScanEnv) (wallet : String)
    (h : ∀ a ∈ (scan_all_chains env wallet).1, a.has_activity = false) :
    (get_all_positions env wallet).1.total_usd_value = 0
      ∧ (get_all_positions env wallet).1.positions = []
      ∧ (get_all_positions env wallet).1.by_chain = []
      ∧ (get_all_positions env wallet).1.by_protocol = []
      ∧ (get_all_positions env wallet).1.total_claimable_rewards_usd = 0
      ∧ (get_all_positions env wallet).2 = []
      ∧ (∀ w c, CallEvent.discovery w c ∉ (get_all_positions env wallet).2)
      ∧ (∀ ks, CallEvent.getPrices ks ∉ (get_all_positions env wallet).2) := by
  have hall := chainActive_false_of_all_inactive env wallet h
  have hactive : detect_active_chains env wallet = [] := by
    unfold detect_active_chains
    refine List.filter_eq_nil_iff.mpr ?_
    intro c hc
    simp [hall c hc]
  have hscan : scan_all_chains env wallet
      = (env.supportedChains.map (fun c => ⟨c, false, []⟩), []) := by
    unfold scan_all_chains
    rw [hactive]
    simp [List.map_map, flatten_map_nil]
  have hfilter : ((scan_all_chains env wallet).1.filter (fun a => a.has_activity)) = [] := by
    refine List.filter_eq_nil_iff.mpr ?_
    intro a ha
    simp [h a ha]
  have hr : get_all_positions env wallet
      = (⟨wallet, [], 0, [], [], 0⟩, (scan_all_chains env wallet).2) := by
    unfold get_all_positions
    simp only [hfilter, List.isEmpty_nil, if_true]
  rw [hr, hscan]
  refine ⟨rfl, rfl, rfl, rfl, rfl, rfl, ?_, ?_⟩
  · intro w c hmem
    simp at hmem
  · intro ks hmem
    simp at hmem

/-- Witness for C2 at a concrete environment: two supported chains, both
probes inactive. -/
def envInactive : ScanEnv :=
  { supportedChains := ["ethereum", "base"]
    chainActive := fun _ _ => false
    discoverResult := fun _ _ => ["lido"]
    handlers := fun _ => none
    get_prices := noPrices }

theorem no_activity_empty_summary_witness :
    (∀ a ∈ (scan_all_chains envInactive "0xw").1, a.has_activity = false)
      ∧ (get_all_positions envInactive "0xw").1.total_usd_value = 0
      ∧ (get_all_positions envInactive "0xw").1.positions = []
      ∧ (get_all_positions envInactive "0xw").2 = [] := by
  have hin : ∀ a ∈ (scan_all_chains envInactive "0xw").1, a.has_activity = false := by
    decide
  have hc := no_activity_empty_summary envInactive "0xw" hin
  exact ⟨hin, hc.1, hc.2.1, hc.2.2.2.2.2.1⟩

/-! ## Log-range chunking (core/scanner.py, _query_logs_with_chunking)

Block positions in a filter are a concrete block number or the tag latest.
The code compares canonical hex strings; numerically equal canonical strings
are equal strings, so tags are compared here by value.  Errors are
classified exactly as the code classifies str(e): a too-many-results
message with a regex-parsable suggested range [sf, st] (the regex
[0-9A-Fa-f]+ only yields nonnegative numbers, hence Nat bounds), a
too-many-results message without a parsable range, and everything else.
The unbounded Python recursion is embedded with explicit fuel: a none
result models a recursion that does not come back. -/

/-- A fromBlock/toBlock value of an eth_getLogs filter. -/
inductive BlockTag where
  | num (n : Int)
  | latest
deriving DecidableEq

/-- Error classes distinguished by _query_logs_with_chunking. -/
inductive RPCErr where
  | tooMany (sf st : Nat)
  | tooManyUnparsable
  | other (msg : String)
deriving DecidableEq

/-- A log-query provider (rpc_provider.make_request specialised to
eth_getLogs) together with the height denoted by the tag latest. -/
structure LogProvider where
  query : List (Option String) → BlockTag → BlockTag → Except RPCErr (List Nat)
  latest : Int

/-- Numeric block height of a tag under a provider. -/
def LogProvider.resolve (p : LogProvider) : BlockTag → Int
  | BlockTag.num n => n
  | BlockTag.latest => p.latest

/-- The except-Exception-pass wrapper around the before/after chunk
queries: an error result is swallowed and the chunk contributes no logs;
a fuel exhaustion (modelled nontermination) still propagates. -/
def swallow (r : Option (Except RPCErr (List Nat))) : Option (List Nat) :=
  match r with
  | none => none
  | some (Except.error _) => some []
  | some (Except.ok logs) => some logs

/-- ChainScanner._query_logs_with_chunking.  On a too-many-results error
with a parsable range [sf, st] the code recursively queries the suggested
range (errors there propagate), then the range before it when
from_block differs from the suggested start and the range after it when
to_block is latest or differs from the suggested end (errors in these two
are swallowed), and returns suggested ++ before ++ after.  Any other error
re-raises. -/
def query_logs_with_chunking (p : LogProvider) :
    Nat → List (Option String) → BlockTag → BlockTag → Option (Except RPCErr (List Nat))
  | 0, _, _, _ => none
  | fuel+1, topics, fb, tb =>
    match p.query topics fb tb with
    | Except.ok logs => some (Except.ok logs)
    | Except.error (RPCErr.tooMany sf st) =>
      match query_logs_with_chunking p fuel topics (BlockTag.num (sf : Int))
          (BlockTag.num (st : Int)) with
      | none => none
      | some (Except.error e2) => some (Except.error e2)
      | some (Except.ok chunkLogs) =>
        match (if fb ≠ BlockTag.num (sf : Int)
              then swallow (query_logs_with_chunking p fuel topics fb
                (BlockTag.num ((sf : Int) - 1)))
              else some []),
            (if tb = BlockTag.latest ∨ tb ≠ BlockTag.num (st : Int)
              then swallow (query_logs_with_chunking p fuel topics
                (BlockTag.num ((st : Int) + 1)) tb)
              else some []) with
        | some beforeLogs, some afterLogs =>
          some (Except.ok (chunkLogs ++ beforeLogs ++ afterLogs))
        | _, _ => none
    | Except.error e => some (Except.error e)

/-- Size of the queried block interval, the termination measure. -/
def chunkWidth (p : LogProvider) (fb tb : BlockTag) : Nat :=
  (p.resolve tb - p.resolve fb + 1).toNat

theorem resolve_num (p : LogProvider) (n : Int) : p.resolve (BlockTag.num n) = n := rfl

/-- The provider property assumed by C5: every too-many-results error
carries a suggested range that is a well-formed strict subrange of the
queried range. -/
def SuggestsNarrower (p : LogProvider) : Prop :=
  ∀ topics fb tb sf st,
    p.query topics fb tb = Except.error (RPCErr.tooMany sf st) →
    p.resolve fb ≤ (sf : Int) ∧ (sf : Int) ≤ (st : Int) ∧ (st : Int) ≤ p.resolve tb
      ∧ (p.resolve fb < (sf : Int) ∨ (st : Int) < p.resolve tb)

/-- C5: for a provider whose every too-many-results error suggests a strict
subrange, the chunking recursion terminates — fuel exceeding the interval
size is never exhausted, because every recursive call queries a strictly
smaller block interval — and one chunking step returns the concatenation of
the suggested-range, before-range and after-range chunk results. -/
theorem chunking_terminates (p : LogProvider) (hN : SuggestsNarrower p) :
    (∀ fuel topics fb tb, chunkWidth p fb tb < fuel →
        ∃ r, query_logs_with_chunking p fuel topics fb tb = some r)
    ∧ (∀ fl topics fb tb sf st chunkLogs bl al,
        p.query topics fb tb = Except.error (RPCErr.tooMany sf st) →
        query_logs_with_chunking p fl topics (BlockTag.num (sf : Int))
            (BlockTag.num (st : Int)) = some (Except.ok chunkLogs) →
        (if fb ≠ BlockTag.num (sf : Int)
            then swallow (query_logs_with_chunking p fl topics fb
              (BlockTag.num ((sf : Int) - 1)))
            else some []) = some bl →
        (if tb = BlockTag.latest ∨ tb ≠ BlockTag.num (st : Int)
            then swallow (query_logs_with_chunking p fl topics
              (BlockTag.num ((st : Int) + 1)) tb)
            else some []) = some al →
        query_logs_with_chunking p (fl+1) topics fb tb
          = some (Except.ok (chunkLogs ++ bl ++ al))) := by
  constructor
  · intro fuel
    induction fuel with
    | zero =>
      intro topics fb tb h
      exact absurd h (by omega)
    | succ fl ih =>
      intro topics fb tb h
      cases hq : p.query topics fb tb with
      | ok logs =>
        exact ⟨Except.ok logs, by simp [query_logs_with_chunking, hq]⟩
      | error e =>
        cases e with
        | tooManyUnparsable =>
          exact ⟨Except.error RPCErr.tooManyUnparsable, by simp [query_logs_with_chunking, hq]⟩
        | other msg =>
          exact ⟨Except.error (RPCErr.other msg), by simp [query_logs_with_chunking, hq]⟩
        | tooMany sf st =>
          obtain ⟨hF, hfs, hsT, hstrict⟩ := hN topics fb tb sf st hq
          have hwmain : chunkWidth p (BlockTag.num (sf : Int)) (BlockTag.num (st : Int)) < fl := by
            simp only [chunkWidth, resolve_num] at h ⊢
            omega
          have hwbefore : chunkWidth p fb (BlockTag.num ((sf : Int) - 1)) < fl := by
            simp only [chunkWidth, resolve_num] at h ⊢
            omega
          have hwafter : chunkWidth p (BlockTag.num ((st : Int) + 1)) tb < fl := by
            simp only [chunkWidth, resolve_num] at h ⊢
            omega
          obtain ⟨r1, hr1⟩ := ih topics (BlockTag.num (sf : Int)) (BlockTag.num (st : Int)) hwmain
          cases r1 with
          | error e2 =>
            exact ⟨Except.error e2, by simp [query_logs_with_chunking, hq, hr1]⟩
          | ok chunkLogs =>
            obtain ⟨rb, hrb⟩ := ih topics fb (BlockTag.num ((sf : Int) - 1)) hwbefore
            obtain ⟨ra, hra⟩ := ih topics (BlockTag.num ((st : Int) + 1)) tb hwafter
            have hb : ∃ bl, (if fb ≠ BlockTag.num (sf : Int)
                then swallow (query_logs_with_chunking p fl topics fb
                  (BlockTag.num ((sf : Int) - 1)))
                else some []) = some bl := by
              by_cases hc : fb ≠ BlockTag.num (sf : Int)
              · rw [if_pos hc, hrb]
                cases rb <;> exact ⟨_, rfl⟩
              · rw [if_neg hc]
                exact ⟨[], rfl⟩
            have ha : ∃ al, (if tb = BlockTag.latest ∨ tb ≠ BlockTag.num (st : Int)
                then swallow (query_logs_with_chunking p fl topics
                  (BlockTag.num ((st : Int) + 1)) tb)
                else some []) = some al := by
              by_cases hc : tb = BlockTag.latest ∨ tb ≠ BlockTag.num (st : Int)
              · rw [if_pos hc, hra]
                cases ra <;> exact ⟨_, rfl⟩
              · rw [if_neg hc]
                exact ⟨[], rfl⟩
            obtain ⟨bl, hbl⟩ := hb
            obtain ⟨al, hal⟩ := ha
            exact ⟨Except.ok (chunkLogs ++ bl ++ al),
              by simp [query_logs_with_chunking, hq, hr1, hbl, hal]⟩
  · intro fl topics fb tb sf st chunkLogs bl al hq hrec hbl hal
    simp [query_logs_with_chunking, hq, hrec, hbl, hal]

/-- A provider that reports too-many-results exactly once, on the range
[0, 10], suggesting the strict subrange [2, 8]. -/
def oneSplitProvider : LogProvider :=
  { query := fun _ fb tb =>
      if fb = BlockTag.num 0 ∧ tb = BlockTag.num 10 then Except.error (RPCErr.tooMany 2 8)
      else Except.ok [7]
    latest := 100 }

theorem oneSplitProvider_narrows : SuggestsNarrower oneSplitProvider := by
  intro topics fb tb sf st h
  simp only [oneSplitProvider] at h
  by_cases hc : fb = BlockTag.num 0 ∧ tb = BlockTag.num 10
  · rw [if_pos hc] at h
    obtain ⟨h1, h2⟩ := hc
    injection h with h3
    injection h3 with hsf hst
    subst hsf
    subst hst
    rw [h1, h2, resolve_num, resolve_num]
    norm_num
  · rw [if_neg hc] at h
    cases h

/-- Witness for C5 at the concrete one-split provider. -/
theorem chunking_terminates_witness :
    SuggestsNarrower oneSplitProvider
      ∧ chunkWidth oneSplitProvider (BlockTag.num 0) (BlockTag.num 10) < 12
      ∧ (∃ r, query_logs_with_chunking oneSplitProvider 12 [] (BlockTag.num 0)
          (BlockTag.num 10) = some r)
      ∧ oneSplitProvider.query [] (BlockTag.num 0) (BlockTag.num 10)
          = Except.error (RPCErr.tooMany 2 8)
      ∧ query_logs_with_chunking oneSplitProvider 12 [] (BlockTag.num 0) (BlockTag.num 10)
          = some (Except.ok ([7] ++ [7] ++ [7])) := by
  have t := chunking_terminates oneSplitProvider oneSplitProvider_narrows
  refine ⟨oneSplitProvider_narrows, by decide, t.1 12 [] _ _ (by decide), rfl, ?_⟩
  exact t.2 11 [] (BlockTag.num 0) (BlockTag.num 10) 2 8 [7] [7] [7] rfl rfl rfl rfl

/-- A provider on which the before-range chunk raises an unrelated error:
the range [0, 10] reports too-many-results suggesting [2, 8], the
before-range query [0, 1] raises a generic error, the other chunks
succeed. -/
def swallowDemoProvider : LogProvider :=
  { query := fun _ fb tb =>
      if fb = BlockTag.num 0 ∧ tb = BlockTag.num 10 then Except.error (RPCErr.tooMany 2 8)
      else if fb = BlockTag.num 0 ∧ tb = BlockTag.num 1 then
        Except.error (RPCErr.other "boom")
      else if fb = BlockTag.num 2 ∧ tb = BlockTag.num 8 then Except.ok [1]
      else if fb = BlockTag.num 9 ∧ tb = BlockTag.num 10 then Except.ok [2]
      else Except.ok []
    latest := 100 }

/-- C6 counterexample: on swallowDemoProvider the before-range recursive
query (blocks 0 to 1) raises a generic, non-too-many error, yet the overall
chunked query of [0, 10] returns logs normally instead of propagating that
error: errors inside the before-range and after-range chunk queries are
swallowed by the code, so the claim as stated is false. -/
theorem before_chunk_error_swallowed :
    swallowDemoProvider.query [] (BlockTag.num 0) (BlockTag.num 1)
        = Except.error (RPCErr.other "boom")
      ∧ query_logs_with_chunking swallowDemoProvider 3 [] (BlockTag.num 0) (BlockTag.num 10)
          = some (Except.ok [1, 2]) :=
  ⟨rfl, rfl⟩

/-- C6 (amended): an error that is not a too-many-results error with a
parsable suggested range propagates to the caller unchanged when it is
raised by the initial query or inside the recursive query of the suggested
range; an error raised inside the before-range or after-range chunk queries
is suppressed and that chunk contributes no logs. -/
theorem error_propagation_scope (p : LogProvider) :
    (∀ fuel topics fb tb msg,
        p.query topics fb tb = Except.error (RPCErr.other msg) →
        query_logs_with_chunking p (fuel+1) topics fb tb
          = some (Except.error (RPCErr.other msg)))
    ∧ (∀ fuel topics fb tb,
        p.query topics fb tb = Except.error RPCErr.tooManyUnparsable →
        query_logs_with_chunking p (fuel+1) topics fb tb
          = some (Except.error RPCErr.tooManyUnparsable))
    ∧ (∀ fuel topics fb tb sf st e2,
        p.query topics fb tb = Except.error (RPCErr.tooMany sf st) →
        query_logs_with_chunking p fuel topics (BlockTag.num (sf : Int))
            (BlockTag.num (st : Int)) = some (Except.error e2) →
        query_logs_with_chunking p (fuel+1) topics fb tb = some (Except.error e2))
    ∧ (∀ e, swallow (some (Except.error e)) = some []) := by
  refine ⟨?_, ?_, ?_, fun e => rfl⟩
  · intro fuel topics fb tb msg hq
    simp [query_logs_with_chunking, hq]
  · intro fuel topics fb tb hq
    simp [query_logs_with_chunking, hq]
  · intro fuel topics fb tb sf st e2 hq hrec
    simp [query_logs_with_chunking, hq, hrec]

/-- A provider exercising every propagation path: the range [0, 10] reports
too-many-results suggesting [2, 8], whose recursive query raises a generic
error; [5, 6] reports too-many-results without a parsable range; [7, 7]
raises a generic error directly. -/
def propDemoProvider : LogProvider :=
  { query := fun _ fb tb =>
      if fb = BlockTag.num 0 ∧ tb = BlockTag.num 10 then Except.error (RPCErr.tooMany 2 8)
      else if fb = BlockTag.num 2 ∧ tb = BlockTag.num 8 then
        Except.error (RPCErr.other "inner")
      else if fb = BlockTag.num 5 ∧ tb = BlockTag.num 6 then
        Except.error RPCErr.tooManyUnparsable
      else if fb = BlockTag.num 7 ∧ tb = BlockTag.num 7 then
        Except.error (RPCErr.other "boom2")
      else Except.ok []
    latest := 100 }

/-- Witness for the amended C6 at the concrete provider, one instance per
propagation path. -/
theorem error_propagation_scope_witness :
    propDemoProvider.query [] (BlockTag.num 7) (BlockTag.num 7)
        = Except.error (RPCErr.other "boom2")
      ∧ query_logs_with_chunking propDemoProvider 1 [] (BlockTag.num 7) (BlockTag.num 7)
          = some (Except.error (RPCErr.other "boom2"))
      ∧ propDemoProvider.query [] (BlockTag.num 5) (BlockTag.num 6)
          = Except.error RPCErr.tooManyUnparsable
      ∧ query_logs_with_chunking propDemoProvider 1 [] (BlockTag.num 5) (BlockTag.num 6)
          = some (Except.error RPCErr.tooManyUnparsable)
      ∧ propDemoProvider.query [] (BlockTag.num 0) (BlockTag.num 10)
          = Except.error (RPCErr.tooMany 2 8)
      ∧ query_logs_with_chunking propDemoProvider 2 [] (BlockTag.num 0) (BlockTag.num 10)
          = some (Except.error (RPCErr.other "inner"))
      ∧ swallow (some (Except.error (RPCErr.other "boom2"))) = some [] := by
  have t := error_propagation_scope propDemoProvider
  have hinner : query_logs_with_chunking propDemoProvider 1 []
      (BlockTag.num ((2 : Nat) : Int)) (BlockTag.num ((8 : Nat) : Int))
      = some (Except.error (RPCErr.other "inner")) :=
    t.1 0 [] _ _ "inner" rfl
  refine ⟨rfl, t.1 0 [] _ _ "boom2" rfl, rfl, t.2.1 0 [] _ _ rfl, rfl, ?_,
    t.2.2.2 (RPCErr.other "boom2")⟩
  exact t.2.2.1 1 [] (BlockTag.num 0) (BlockTag.num 10) 2 8 (RPCErr.other "inner") rfl hinner

/-! ## Retry backoff (rpc/retry.py, RetryConfig.get_delay)

The Python fields are floats; every arithmetic operation of get_delay
(multiplication, integer power, min) is embedded exactly over the
rationals.  The attempt index is the 0-based loop counter, a natural
number. -/

/-- RetryConfig from rpc/retry.py. -/
structure RetryConfig where
  max_retries : Int
  base_delay : Dec
  max_delay : Dec
  exponential_base : Dec

/-- RetryConfig.get_delay: base_delay * exponential_base ** attempt capped
at max_delay. -/
def RetryConfig.get_delay (c : RetryConfig) (attempt : Nat) : Dec :=
  min (c.base_delay * c.exponential_base ^ attempt) c.max_delay

/-- C7: the retry delay equals min(base_delay * exponential_base^n,
max_delay) for every 0-based attempt index n, and for
RetryConfig(base_delay=1, exponential_base=2, max_delay=30) the delay
sequence over n = 0, 1, 2, ... is 1, 2, 4, 8, 16 and then 30 forever. -/
theorem retry_delay_formula :
    (∀ (c : RetryConfig) (n : Nat),
        c.get_delay n = min (c.base_delay * c.exponential_base ^ n) c.max_delay)
    ∧ (∀ n : Nat,
        (RetryConfig.mk 3 1 30 2).get_delay n = if n ≤ 4 then 2 ^ n else 30) := by
  refine ⟨fun c n => rfl, fun n => ?_⟩
  by_cases hn : n ≤ 4
  · rw [if_pos hn]
    unfold RetryConfig.get_delay
    rw [one_mul]
    apply min_eq_left
    calc (2 : Dec) ^ n ≤ 2 ^ 4 := by
          apply pow_le_pow_right₀ (by norm_num) hn
      _ ≤ 30 := by norm_num
  · rw [if_neg hn]
    unfold RetryConfig.get_delay
    rw [one_mul]
    apply min_eq_right
    calc (30 : Dec) ≤ 2 ^ 5 := by norm_num
      _ ≤ 2 ^ n := by
          apply pow_le_pow_right₀ (by norm_num)
          omega

/-! ## Response cache (rpc/cache.py)

time.time() values are embedded as exact rationals.  _make_key hashes the
canonical JSON of (method, params) with sha256; the hash is deterministic
and collision-free on the inputs considered, so the cache key is embedded
as the (method, params) pair itself.  The value type is a parameter. -/

/-- CacheEntry from rpc/cache.py (created_at is always supplied by set with
the current time, matching created_at = created_at or time.time()). -/
structure CacheEntry (V : Type) where
  value : V
  ttl : Int
  created_at : Dec

/-- CacheEntry.is_expired at the current time now. -/
def CacheEntry.is_expired {V : Type} (e : CacheEntry V) (now : Dec) : Bool :=
  now - e.created_at > (e.ttl : Dec)

/-- RPCCache from rpc/cache.py. -/
structure RPCCache (V : Type) where
  default_ttl : Int
  cache : List ((String × List String) × CacheEntry V)

/-- RPCCache.get at time now: absent key gives none; an expired entry is
deleted and none is returned; otherwise the value is returned.  The state
after the call is the second component. -/
def RPCCache.get {V : Type} (c : RPCCache V) (now : Dec) (method : String)
    (params : List String) : Option V × RPCCache V :=
  match dictGet c.cache (method, params) with
  | none => (none, c)
  | some entry =>
    if entry.is_expired now then
      (none, { c with cache := c.cache.filter (fun p => !(decide (p.1 = (method, params)))) })
    else (some entry.value, c)

/-- RPCCache.set at time now.  Note the Python idiom
ttl = ttl or self.default_ttl: a supplied ttl of 0 is falsy and is replaced
by the default ttl, exactly like a missing ttl. -/
def RPCCache.set {V : Type} (c : RPCCache V) (now : Dec) (method : String)
    (params : List String) (value : V) (ttl : Option Int) : RPCCache V :=
  let t := match ttl with
    | none => c.default_ttl
    | some t0 => if t0 = 0 then c.default_ttl else t0
  { c with cache := dictSet c.cache (method, params) ⟨value, t, now⟩ }

theorem dictGet_dictSet_self {κ ν : Type} [DecidableEq κ] (d : List (κ × ν)) (k : κ) (v : ν) :
    dictGet (dictSet d k v) k = some v := by
  induction d with
  | nil => simp [dictSet, dictGet, List.find?]
  | cons a rest ih =>
    obtain ⟨a1, a2⟩ := a
    by_cases hak : a1 = k
    · subst hak
      have hany : ((a1, a2) :: rest).any (fun p => p.1 == a1) = true := by simp
      simp only [dictSet, hany, if_true, List.map_cons, beq_self_eq_true, if_pos]
      simp [dictGet, List.find?]
    · rw [dictSet_cons_ne _ _ _ _ _ hak, dictGet_cons_ne _ _ _ _ hak]
      exact ih

theorem dictGet_filter_out {κ ν : Type} [DecidableEq κ] (d : List (κ × ν)) (k : κ) :
    dictGet (d.filter (fun p => !(decide (p.1 = k)))) k = none := by
  induction d with
  | nil => rfl
  | cons a rest ih =>
    by_cases hak : a.1 = k
    · simpa [List.filter, hak] using ih
    · have hb : decide (a.1 = k) = false := by simp [hak]
      simp only [List.filter, hb, Bool.not_false]
      rw [dictGet_cons_ne _ _ _ _ hak]
      exact ih

theorem RPCCache.get_eq_of_entry {V : Type} (c : RPCCache V) (now : Dec) (m : String)
    (p : List String) (e : CacheEntry V) (h : dictGet c.cache (m, p) = some e) :
    c.get now m p
      = if e.is_expired now
          then (none, { c with cache := c.cache.filter (fun q => !(decide (q.1 = (m, p)))) })
          else (some e.value, c) := by
  unfold RPCCache.get
  rw [h]

/-- C8 counterexample: a supplied TTL of 0 is falsy in Python, so
set(m, p, v, ttl=0) stores the entry under the default TTL (300 here); a
get one second later — strictly after the supplied TTL of 0 has elapsed —
still returns the value instead of absent, so the claim as stated fails at
T = 0. -/
theorem cache_zero_ttl_counterexample :
    (1 : Dec) - 0 > 0
      ∧ (((RPCCache.mk 300 [] : RPCCache Nat).set 0 "m" [] 42 (some 0)).get 1 "m" []).1
          = some 42 := by
  constructor
  · norm_num
  · have hset : ((RPCCache.mk 300 [] : RPCCache Nat).set 0 "m" [] 42 (some 0)).cache
        = dictSet [] ("m", []) ⟨42, 300, 0⟩ := by
      simp [RPCCache.set]
    have hget0 : dictGet ((RPCCache.mk 300 [] : RPCCache Nat).set 0 "m" [] 42
        (some 0)).cache ("m", []) = some ⟨42, 300, 0⟩ := by
      rw [hset]
      exact dictGet_dictSet_self _ _ _
    have hexp : CacheEntry.is_expired (⟨42, 300, 0⟩ : CacheEntry Nat) 1 = false := by
      simp only [CacheEntry.is_expired]
      simp only [decide_eq_false_iff_not]
      norm_num
    rw [RPCCache.get_eq_of_entry _ _ _ _ _ hget0, if_neg (by simp [hexp])]

/-- C8 (amended): for every supplied nonzero TTL T, set(m, p, v, ttl=T)
followed by get(m, p) at a time t with t - created_at <= T returns v, and
at a time with t - created_at > T returns absent and removes the expired
entry from the cache (a supplied TTL of zero instead falls back to the
default TTL, being falsy). -/
theorem cache_roundtrip {V : Type} (c : RPCCache V) (t0 : Dec) (m : String)
    (p : List String) (v : V) (T : Int) (hT : T ≠ 0) (t : Dec) :
    (t - t0 ≤ (T : Dec) → ((c.set t0 m p v (some T)).get t m p).1 = some v)
    ∧ ((T : Dec) < t - t0 →
        ((c.set t0 m p v (some T)).get t m p).1 = none
        ∧ dictGet (((c.set t0 m p v (some T)).get t m p).2.cache) (m, p) = none) := by
  have hset : (c.set t0 m p v (some T)).cache
      = dictSet c.cache (m, p) ⟨v, T, t0⟩ := by
    simp [RPCCache.set, hT]
  have hget : dictGet (c.set t0 m p v (some T)).cache (m, p) = some ⟨v, T, t0⟩ := by
    rw [hset]
    exact dictGet_dictSet_self _ _ _
  have hmain := RPCCache.get_eq_of_entry (c.set t0 m p v (some T)) t m p ⟨v, T, t0⟩ hget
  constructor
  · intro h
    have hexp : CacheEntry.is_expired (⟨v, T, t0⟩ : CacheEntry V) t = false := by
      simp only [CacheEntry.is_expired]
      simp only [decide_eq_false_iff_not]
      exact not_lt.mpr h
    rw [hmain, if_neg (by simp [hexp])]
  · intro h
    have hexp : CacheEntry.is_expired (⟨v, T, t0⟩ : CacheEntry V) t = true := by
      simp only [CacheEntry.is_expired]
      exact decide_eq_true h
    rw [hmain, if_pos hexp]
    refine ⟨rfl, ?_⟩
    show dictGet ((c.set t0 m p v (some T)).cache.filter
      (fun q => !(decide (q.1 = (m, p))))) (m, p) = none
    exact dictGet_filter_out (c.set t0 m p v (some T)).cache (m, p)

/-- Witness for the amended C8: ttl 10 seconds, a hit at 5 seconds and an
expiry with eviction at 11 seconds. -/
theorem cache_roundtrip_witness :
    ((10 : Int) ≠ 0)
      ∧ ((5 : Dec) - 0 ≤ ((10 : Int) : Dec))
      ∧ (((RPCCache.mk 300 [] : RPCCache Nat).set 0 "m" [] 42 (some 10)).get 5 "m" []).1
          = some 42
      ∧ (((10 : Int) : Dec) < (11 : Dec) - 0)
      ∧ (((RPCCache.mk 300 [] : RPCCache Nat).set 0 "m" [] 42 (some 10)).get 11 "m" []).1
          = none
      ∧ dictGet ((((RPCCache.mk 300 [] : RPCCache Nat).set 0 "m" [] 42
          (some 10)).get 11 "m" []).2.cache) ("m", []) = none := by
  have h1 := (cache_roundtrip (RPCCache.mk 300 [] : RPCCache Nat) 0 "m" [] 42 10
    (by norm_num) 5).1 (by norm_num)
  have h2 := (cache_roundtrip (RPCCache.mk 300 [] : RPCCache Nat) 0 "m" [] 42 10
    (by norm_num) 11).2 (by norm_num)
  exact ⟨by norm_num, by norm_num, h1, by norm_num, h2.1, h2.2⟩

/-! ## Address topic padding (core/scanner.py, ChainScanner._pad_address)

A Python string is a sequence of Unicode code points; the padding code only
rearranges code points, so strings are embedded as lists of code points
(48 is the digit zero, 120 is the lower-case letter x, 43 and 45 are the
plus and minus signs). -/

/-- A Python string as its list of code points. -/
abbrev PyStr := List Nat

/-- str.lower on one ASCII code point. -/
def pyLowerChar (c : Nat) : Nat := if 65 ≤ c ∧ c ≤ 90 then c + 32 else c

/-- str.lower (the addresses handled are ASCII). -/
def pyLower (s : PyStr) : PyStr := s.map pyLowerChar

/-- str.replace of the two-character pattern 0x by the empty string:
removes every non-overlapping occurrence, scanning left to right. -/
def remove0x : PyStr → PyStr
  | [] => []
  | [c] => [c]
  | c1 :: c2 :: rest =>
    if c1 = 48 ∧ c2 = 120 then remove0x rest else c1 :: remove0x (c2 :: rest)

/-- str.zfill(width): left-pad with the digit zero up to width, keeping a
leading sign character in front of the padding. -/
def zfill (width : Nat) (s : PyStr) : PyStr :=
  if width ≤ s.length then s
  else
    match s with
    | [] => List.replicate width 48
    | c :: rest =>
      if c = 43 ∨ c = 45 then c :: (List.replicate (width - s.length) 48 ++ rest)
      else List.replicate (width - s.length) 48 ++ s

/-- ChainScanner._pad_address: lower-case, strip the 0x occurrences, pad to
64 hex characters, re-add the 0x prefix. -/
def pad_address (address : PyStr) : PyStr :=
  48 :: 120 :: zfill 64 (remove0x (pyLower address))

/-- Code point of a hex digit (either case). -/
def isHexCode (c : Nat) : Prop :=
  (48 ≤ c ∧ c ≤ 57) ∨ (97 ≤ c ∧ c ≤ 102) ∨ (65 ≤ c ∧ c ≤ 70)

instance (c : Nat) : Decidable (isHexCode c) := by
  unfold isHexCode
  infer_instance

/-- Code point of a lower-case hex digit. -/
def isLowerHexCode (c : Nat) : Prop := (48 ≤ c ∧ c ≤ 57) ∨ (97 ≤ c ∧ c ≤ 102)

instance (c : Nat) : Decidable (isLowerHexCode c) := by
  unfold isLowerHexCode
  infer_instance

/-- Numeric value of a hex digit code point. -/
def hexDigitVal (c : Nat) : Nat :=
  if 48 ≤ c ∧ c ≤ 57 then c - 48
  else if 65 ≤ c ∧ c ≤ 70 then c - 55
  else if 97 ≤ c ∧ c ≤ 102 then c - 87
  else 0

/-- Big-endian integer value of a hex string. -/
def hexVal (s : PyStr) : Nat := s.foldl (fun acc c => 16 * acc + hexDigitVal c) 0

theorem pyLowerChar_hex (c : Nat) (h : isHexCode c) :
    isLowerHexCode (pyLowerChar c) ∧ hexDigitVal (pyLowerChar c) = hexDigitVal c := by
  unfold isHexCode at h
  unfold isLowerHexCode pyLowerChar hexDigitVal
  split_ifs <;> omega

theorem remove0x_no_x (s : PyStr) (h : ∀ c ∈ s, c ≠ 120) : remove0x s = s := by
  induction s with
  | nil => rfl
  | cons c1 rest ih =>
    cases rest with
    | nil => rfl
    | cons c2 rest2 =>
      have h2 : c2 ≠ 120 := h c2 (by simp)
      have hcond : ¬(c1 = 48 ∧ c2 = 120) := fun hc => h2 hc.2
      have ht : remove0x (c2 :: rest2) = c2 :: rest2 :=
        ih (fun c hc => h c (List.mem_cons_of_mem _ hc))
      simp only [remove0x, if_neg hcond, ht]

theorem hexVal_go_zeros (n : Nat) (s : PyStr) :
    (List.replicate n 48 ++ s).foldl (fun acc c => 16 * acc + hexDigitVal c) 0
      = s.foldl (fun acc c => 16 * acc + hexDigitVal c) 0 := by
  induction n with
  | zero => rfl
  | succ m ih =>
    have h48 : hexDigitVal 48 = 0 := by decide
    simpa [List.replicate, h48] using ih

theorem hexVal_fold_lower (s : PyStr) (h : ∀ c ∈ s, isHexCode c) (acc : Nat) :
    (pyLower s).foldl (fun a c => 16 * a + hexDigitVal c) acc
      = s.foldl (fun a c => 16 * a + hexDigitVal c) acc := by
  induction s generalizing acc with
  | nil => rfl
  | cons c rest ih =>
    have hc := pyLowerChar_hex c (h c (by simp))
    simp only [pyLower, List.map_cons, List.foldl_cons, hc.2]
    exact ih (fun d hd => h d (List.mem_cons_of_mem _ hd)) _

theorem hexVal_lower (s : PyStr) (h : ∀ c ∈ s, isHexCode c) :
    hexVal (pyLower s) = hexVal s :=
  hexVal_fold_lower s h 0

theorem zfill_64_of_40 (s : PyStr) (hlen : s.length = 40) (hge : ∀ c ∈ s, 48 ≤ c) :
    zfill 64 s = List.replicate 24 48 ++ s := by
  unfold zfill
  rw [if_neg (by omega)]
  cases s with
  | nil => simp at hlen
  | cons c rest =>
    have hc : 48 ≤ c := hge c (by simp)
    show (if c = 43 ∨ c = 45
        then c :: (List.replicate (64 - (c :: rest).length) 48 ++ rest)
        else List.replicate (64 - (c :: rest).length) 48 ++ (c :: rest))
      = List.replicate 24 48 ++ (c :: rest)
    rw [if_neg (by omega), hlen]

theorem zfill_of_full (s : PyStr) (hlen : s.length = 64) : zfill 64 s = s := by
  unfold zfill
  rw [if_pos (by omega)]

theorem pyLower_fixed (s : PyStr) (h : ∀ c ∈ s, ¬(65 ≤ c ∧ c ≤ 90)) : pyLower s = s := by
  unfold pyLower
  calc s.map pyLowerChar = s.map id := by
        apply List.map_congr_left
        intro c hc
        unfold pyLowerChar
        rw [if_neg (h c hc)]
        rfl
    _ = s := List.map_id s

/-- C9: padding a 0x-prefixed 20-byte (40 hex character) address produces
0x followed by exactly 64 lower-case hex characters — 24 zero code points
and the lower-cased body — whose big-endian value equals the address
value, the result is 66 characters long, and padding is idempotent. -/
theorem pad_address_spec (body : PyStr) (hlen : body.length = 40)
    (hhex : ∀ c ∈ body, isHexCode c) :
    pad_address (48 :: 120 :: body)
        = 48 :: 120 :: (List.replicate 24 48 ++ pyLower body)
      ∧ (List.replicate 24 48 ++ pyLower body).length = 64
      ∧ (∀ c ∈ List.replicate 24 48 ++ pyLower body, isLowerHexCode c)
      ∧ hexVal (List.replicate 24 48 ++ pyLower body) = hexVal body
      ∧ (pad_address (48 :: 120 :: body)).length = 66
      ∧ pad_address (pad_address (48 :: 120 :: body)) = pad_address (48 :: 120 :: body) := by
  have hlow : ∀ c ∈ pyLower body, isLowerHexCode c := by
    intro c hc
    rcases List.mem_map.mp hc with ⟨d, hd, hdc⟩
    rw [← hdc]
    exact (pyLowerChar_hex d (hhex d hd)).1
  have hnx : ∀ c ∈ pyLower body, c ≠ 120 := by
    intro c hc
    have := hlow c hc
    unfold isLowerHexCode at this
    omega
  have hge : ∀ c ∈ pyLower body, 48 ≤ c := by
    intro c hc
    have := hlow c hc
    unfold isLowerHexCode at this
    omega
  have hlenl : (pyLower body).length = 40 := by simp [pyLower, hlen]
  have h48 : pyLowerChar 48 = 48 := by decide
  have h120 : pyLowerChar 120 = 120 := by decide
  have hr : pad_address (48 :: 120 :: body)
      = 48 :: 120 :: (List.replicate 24 48 ++ pyLower body) := by
    unfold pad_address
    have h1 : pyLower (48 :: 120 :: body) = 48 :: 120 :: pyLower body := by
      unfold pyLower
      simp only [List.map_cons, h48, h120]
    have h2 : remove0x (48 :: 120 :: pyLower body) = pyLower body := by
      have hstep : remove0x (48 :: 120 :: pyLower body) = remove0x (pyLower body) := by
        simp [remove0x]
      rw [hstep, remove0x_no_x _ hnx]
    rw [h1, h2, zfill_64_of_40 _ hlenl hge]
  have hpadlen : (List.replicate 24 48 ++ pyLower body).length = 64 := by
    simp [hlenl]
  have hpadhex : ∀ c ∈ List.replicate 24 48 ++ pyLower body, isLowerHexCode c := by
    intro c hc
    rcases List.mem_append.mp hc with hc | hc
    · have hc48 : c = 48 := List.eq_of_mem_replicate hc
      subst hc48
      unfold isLowerHexCode
      omega
    · exact hlow c hc
  refine ⟨hr, hpadlen, hpadhex, ?_, ?_, ?_⟩
  · unfold hexVal
    rw [hexVal_go_zeros]
    exact hexVal_fold_lower body hhex 0
  · rw [hr]
    simp [hlenl]
  · rw [hr]
    unfold pad_address
    have hnoupper : ∀ c ∈ (48 : Nat) :: 120 :: (List.replicate 24 48 ++ pyLower body),
        ¬(65 ≤ c ∧ c ≤ 90) := by
      intro c hc
      rcases List.mem_cons.mp hc with hc | hc
      · omega
      rcases List.mem_cons.mp hc with hc | hc
      · omega
      · have := hpadhex c hc
        unfold isLowerHexCode at this
        omega
    have h1 : pyLower ((48 : Nat) :: 120 :: (List.replicate 24 48 ++ pyLower body))
        = 48 :: 120 :: (List.replicate 24 48 ++ pyLower body) :=
      pyLower_fixed _ hnoupper
    have hnx2 : ∀ c ∈ List.replicate 24 48 ++ pyLower body, c ≠ 120 := by
      intro c hc
      have := hpadhex c hc
      unfold isLowerHexCode at this
      omega
    have h2 : remove0x ((48 : Nat) :: 120 :: (List.replicate 24 48 ++ pyLower body))
        = List.replicate 24 48 ++ pyLower body := by
      have hstep : remove0x ((48 : Nat) :: 120 :: (List.replicate 24 48 ++ pyLower body))
          = remove0x (List.replicate 24 48 ++ pyLower body) := by
        simp [remove0x]
      rw [hstep, remove0x_no_x _ hnx2]
    rw [h1, h2, zfill_of_full _ hpadlen]

/-- Witness for C9 at a concrete 40-hex-character address body. -/
theorem pad_address_spec_witness :
    ((List.replicate 39 48 ++ [97] : PyStr).length = 40)
      ∧ (∀ c ∈ (List.replicate 39 48 ++ [97] : PyStr), isHexCode c)
      ∧ pad_address (48 :: 120 :: (List.replicate 39 48 ++ [97]))
          = 48 :: 120 :: (List.replicate 24 48 ++ pyLower (List.replicate 39 48 ++ [97]))
      ∧ hexVal (List.replicate 24 48 ++ pyLower (List.replicate 39 48 ++ [97]))
          = hexVal (List.replicate 39 48 ++ [97])
      ∧ pad_address (pad_address (48 :: 120 :: (List.replicate 39 48 ++ [97])))
          = pad_address (48 :: 120 :: (List.replicate 39 48 ++ [97])) := by
  have h := pad_address_spec (List.replicate 39 48 ++ [97]) (by simp) (by decide)
  exact ⟨by simp, by decide, h.1, h.2.2.2.1, h.2.2.2.2.2⟩

end CryptoPortfolio
